import Mathlib

/-!
Verification of the RelatoRecibo OCR extraction pipeline
(`pwa-v2/backend/app/services/ocr/` and `app/utils/formatters/currency.py`).

The Python sources are shallowly embedded: strings are `List Char`, Python
`Decimal` is an integer mantissa with a decimal scale (`PyDecimal`), the three
`ValueParser.VALUE_PATTERNS` regular expressions are embedded as executable
matchers with Python `re` semantics (leftmost search, greedy quantifiers with
backtracking, `^`/`$` without MULTILINE, non-overlapping `finditer` scanning).
Character classes `\s` and `\d` are modelled over their ASCII meaning, which
covers every input considered here.
-/

namespace RelatoRecibo

/-! ## Characters and Python string helpers -/

/-- ASCII decimal digit, the `\d` class as used by the value patterns. -/
def isPyDigit (c : Char) : Bool :=
  '0' ≤ c && c ≤ '9'

/-- Python whitespace (`\s`, `str.strip`, `str.isspace`), ASCII part:
space, tab, newline, carriage return, vertical tab, form feed. -/
def isPySpace (c : Char) : Bool :=
  c = ' ' || c = '\t' || c = '\n' || c = '\r' || c = '\x0b' || c = '\x0c'

/-- Numeric value of a digit character. -/
def digitVal (c : Char) : ℕ :=
  c.toNat - '0'.toNat

/-- `str.lower` restricted to ASCII letters plus the accented capitals that
occur in Portuguese receipt vocabulary. -/
def pyLower (c : Char) : Char :=
  if 'A' ≤ c && c ≤ 'Z' then Char.ofNat (c.toNat + 32)
  else if c = 'Á' then 'á' else if c = 'Â' then 'â' else if c = 'Ã' then 'ã'
  else if c = 'É' then 'é' else if c = 'Ê' then 'ê'
  else if c = 'Í' then 'í'
  else if c = 'Ó' then 'ó' else if c = 'Ô' then 'ô' else if c = 'Õ' then 'õ'
  else if c = 'Ú' then 'ú' else if c = 'Ç' then 'ç'
  else c

/-- Python `str.strip()`: drop leading and trailing whitespace. -/
def pyStrip (s : List Char) : List Char :=
  ((s.dropWhile isPySpace).reverse.dropWhile isPySpace).reverse

/-- Python `str.split('\n')`; on the empty string it yields `[""]`. -/
def splitLines : List Char → List (List Char)
  | [] => [[]]
  | '\n' :: t => [] :: splitLines t
  | c :: t =>
    match splitLines t with
    | [] => [[c]]
    | l :: ls => (c :: l) :: ls

/-- Does `pat` begin the list `s`? -/
def startsWith : List Char → List Char → Bool
  | [], _ => true
  | _ :: _, [] => false
  | a :: p, b :: s => a = b && startsWith p s

/-- Python substring containment `needle in hay`. -/
def hasSub : List Char → List Char → Bool
  | hay, needle =>
    startsWith needle hay ||
      match hay with
      | [] => false
      | _ :: t => hasSub t needle

/-! ## Python `Decimal` model

A Python `Decimal` built from a numeric literal is a (signed) coefficient with
a decimal exponent; comparison, hashing and truthiness are by numeric value.
We model it as an integer mantissa `man` and scale `sc`, denoting
`man / 10 ^ sc`. -/

structure PyDecimal where
  man : ℤ
  sc : ℕ
deriving DecidableEq, Repr

/-- Numeric value denoted by a `PyDecimal` (used in specifications). -/
def PyDecimal.val (d : PyDecimal) : ℚ :=
  (d.man : ℚ) / 10 ^ d.sc

/-- Numeric equality of Python decimals (`==`, also used by `set` and `in`). -/
def decEqv (a b : PyDecimal) : Bool :=
  a.man * 10 ^ b.sc = b.man * 10 ^ a.sc

/-- Numeric strict order of Python decimals (`<`). -/
def decLt (a b : PyDecimal) : Bool :=
  a.man * 10 ^ b.sc < b.man * 10 ^ a.sc

/-- Numeric order of Python decimals (`<=`). -/
def decLe (a b : PyDecimal) : Bool :=
  a.man * 10 ^ b.sc ≤ b.man * 10 ^ a.sc

/-- Python truthiness of a `Decimal`: false exactly on zero. -/
def decTruthy (d : PyDecimal) : Bool :=
  d.man ≠ 0

/-- Longest prefix of decimal digits, with the rest of the list. -/
def digitRun : List Char → List Char × List Char
  | [] => ([], [])
  | c :: cs =>
    if isPyDigit c then
      match digitRun cs with
      | (d, r) => (c :: d, r)
    else ([], c :: cs)

/-- Combine a digit list (most significant first) into a natural number. -/
def natOfDigits (l : List Char) : ℕ :=
  l.foldl (fun a c => a * 10 + digitVal c) 0

/-- Unsigned part of the `Decimal(str)` literal grammar: digits with at most
one decimal point and at least one digit (`"12"`, `"12.34"`, `".5"`, `"5."`).
Exponent forms and the special values `NaN`/`Infinity` are not modelled; no
call site in the embedded code produces them. -/
def decNum (t : List Char) : Option PyDecimal :=
  match digitRun t with
  | (ip, r) =>
    match r with
    | [] => if ip = [] then none else some ⟨(natOfDigits ip : ℤ), 0⟩
    | '.' :: fr =>
      match digitRun fr with
      | (fp, r2) =>
        if r2 = [] && !(ip = [] && fp = []) then
          some ⟨(natOfDigits (ip ++ fp) : ℤ), fp.length⟩
        else none
    | _ => none

/-- Model of the Python `Decimal` constructor on strings: optional sign, then
a plain numeric literal; anything else raises `InvalidOperation`, modelled as
`none`. -/
def decimalOfString (s : List Char) : Option PyDecimal :=
  match s with
  | '-' :: t => (decNum t).map (fun d => ⟨-d.man, d.sc⟩)
  | '+' :: t => decNum t
  | t => decNum t

/-! ## The `VALUE_PATTERNS` regular expressions

```
R[\$S]\s*(\d{1,3}(?:\.\d{3})*,\d{2})          -- pattern 1 (IGNORECASE)
(?:^|\s)(\d{1,3}(?:\.\d{3})+,\d{2})(?:\s|$)   -- pattern 2
(?:^|\s)(\d{1,4},\d{2})(?:\s|$)               -- pattern 3
```

All three are compiled without MULTILINE, so `^` matches only at position 0 of
the searched string and `$` at its end (the `$`-before-final-newline case is
subsumed here by the `\s` alternative that precedes it).  The matchers below
realise Python's backtracking order: greedy quantifiers first try the longest
extent and retreat on failure; ordered alternation tries the left alternative
first. -/

/-- Match exactly `n` digit characters at the head of `s`. -/
def takeDigits : ℕ → List Char → Option (List Char × List Char)
  | 0, s => some ([], s)
  | n + 1, c :: cs =>
    if isPyDigit c then
      match takeDigits n cs with
      | some (d, r) => some (c :: d, r)
      | none => none
    else none
  | _ + 1, [] => none

/-- Match the pattern tail `,\d{2}` at the head of `s`. -/
def tryTail (s : List Char) : Option (List Char × List Char) :=
  match s with
  | ',' :: a :: b :: r =>
    if isPyDigit a && isPyDigit b then some ([',', a, b], r) else none
  | _ => none

/-- Match `(?:\.\d{3}){minReps,},\d{2}`: the greedy star over `\.\d{3}`
followed by `,\d{2}`, with Python's backtracking over the repetition count
(longest first, never fewer than `minReps`, counted by `taken`). -/
def repsThenTail (minReps : ℕ) : ℕ → List Char → Option (List Char × List Char)
  | taken, '.' :: a :: b :: c :: rest =>
    if isPyDigit a && isPyDigit b && isPyDigit c then
      match repsThenTail minReps (taken + 1) rest with
      | some (g, r) => some ('.' :: a :: b :: c :: g, r)
      | none =>
        if minReps ≤ taken then tryTail ('.' :: a :: b :: c :: rest) else none
    else
      if minReps ≤ taken then tryTail ('.' :: a :: b :: c :: rest) else none
  | taken, s => if minReps ≤ taken then tryTail s else none

/-- Greedy `\d{1,d}` followed by `next`, backtracking from `d` digits down to
one, as Python's engine does. -/
def tryIntThen (next : List Char → Option (List Char × List Char)) :
    ℕ → List Char → Option (List Char × List Char)
  | 0, _ => none
  | d + 1, s =>
    match takeDigits (d + 1) s with
    | some (ds, r) =>
      match next r with
      | some (g, rest) => some (ds ++ g, rest)
      | none => tryIntThen next d s
    | none => tryIntThen next d s

/-- Capture group of pattern 1: `\d{1,3}(?:\.\d{3})*,\d{2}`. -/
def groupP1 (s : List Char) : Option (List Char × List Char) :=
  tryIntThen (repsThenTail 0 0) 3 s

/-- Capture group of pattern 2: `\d{1,3}(?:\.\d{3})+,\d{2}`. -/
def groupP2 (s : List Char) : Option (List Char × List Char) :=
  tryIntThen (repsThenTail 1 0) 3 s

/-- Capture group of pattern 3: `\d{1,4},\d{2}`. -/
def groupP3 (s : List Char) : Option (List Char × List Char) :=
  tryIntThen tryTail 4 s

/-- The trailing `(?:\s|$)` of patterns 2 and 3: consume one whitespace
character, or match the end of the searched string.  (`$` also matches before
a final newline, but a newline is itself `\s`, so the first alternative always
fires there.) -/
def matchPost : List Char → Option (List Char)
  | [] => some []
  | c :: cs => if isPySpace c then some cs else none

/-- Pattern 1 at one position: `R[\$S]` (IGNORECASE), then greedy `\s*`
(deterministic, as `\s` and `\d` are disjoint), then the capture group.
Returns the captured group and the remainder after the whole match. -/
def matchP1At (s : List Char) : Option (List Char × List Char) :=
  match s with
  | c0 :: c1 :: rest =>
    if (c0 = 'R' || c0 = 'r') && (c1 = '$' || c1 = 'S' || c1 = 's') then
      groupP1 (rest.dropWhile isPySpace)
    else none
  | _ => none

/-- The capture group followed by the trailing boundary `(?:\s|$)`, starting
at a fixed position. -/
def boundedCore (grp : List Char → Option (List Char × List Char))
    (s : List Char) : Option (List Char × List Char) :=
  match grp s with
  | some (g, r) =>
    match matchPost r with
    | some r2 => some (g, r2)
    | none => none
  | none => none

/-- Patterns 2 and 3 at one position: `(?:^|\s)`, the capture group `grp`,
then `(?:\s|$)`.  `bos` records whether this position is the start of the
searched string.  The `^` alternative (no character consumed) is tried before
the `\s` alternative, as in Python's ordered alternation; the group grammar is
prefix-deterministic (its extent at a given start is unique), so no further
group backtracking can rescue a failed boundary. -/
def matchBoundedAt (grp : List Char → Option (List Char × List Char))
    (bos : Bool) (s : List Char) : Option (List Char × List Char) :=
  match (if bos then boundedCore grp s else none) with
  | some res => some res
  | none =>
    match s with
    | c :: cs => if isPySpace c then boundedCore grp cs else none
    | [] => none

/-- Pattern matcher interface: start-of-string flag and remaining text. -/
def matchP1 (_ : Bool) (s : List Char) : Option (List Char × List Char) :=
  matchP1At s

def matchP2 (bos : Bool) (s : List Char) : Option (List Char × List Char) :=
  matchBoundedAt groupP2 bos s

def matchP3 (bos : Bool) (s : List Char) : Option (List Char × List Char) :=
  matchBoundedAt groupP3 bos s

/-- `re.finditer`: scan left to right; at each position try the pattern, on a
match emit the capture group and resume after the match, otherwise advance one
character.  Every match here consumes at least one character, so fuel
`length + 1` never runs out. -/
def scanAux (m : Bool → List Char → Option (List Char × List Char)) :
    ℕ → Bool → List Char → List (List Char)
  | 0, _, _ => []
  | f + 1, bos, s =>
    match m bos s, s with
    | some (g, rest), _ => g :: scanAux m f false rest
    | none, [] => []
    | none, _ :: cs => scanAux m f false cs

/-- All capture groups found by `re.finditer(pattern, text)`. -/
def scanAll (m : Bool → List Char → Option (List Char × List Char))
    (s : List Char) : List (List Char) :=
  scanAux m (s.length + 1) true s

/-- `re.search`: the capture group of the leftmost match, if any. -/
def searchAux (m : Bool → List Char → Option (List Char × List Char)) :
    ℕ → Bool → List Char → Option (List Char)
  | 0, _, _ => none
  | f + 1, bos, s =>
    match m bos s, s with
    | some (g, _), _ => some g
    | none, [] => none
    | none, _ :: cs => searchAux m f false cs

def searchPat (m : Bool → List Char → Option (List Char × List Char))
    (s : List Char) : Option (List Char) :=
  searchAux m (s.length + 1) true s

/-! ## `ValueParser` (`app/services/ocr/value_parser.py`) -/

/-- `ValueParser.TOTAL_KEYWORDS`. -/
def TOTAL_KEYWORDS : List (List Char) :=
  ["total".toList, "valor total".toList, "total geral".toList,
   "total a pagar".toList, "total líquido".toList, "valor".toList,
   "vlr".toList, "vl total".toList, "soma".toList, "importância".toList,
   "liquido".toList, "líquido".toList]

/-- `ValueParser._parse_brazilian_currency`: strip, delete every thousands
separator `.`, turn the decimal separator `,` into `.`, then `Decimal(...)`;
an invalid literal yields `None`. -/
def parse_brazilian_currency (s : List Char) : Option PyDecimal :=
  let s1 := pyStrip s
  let s2 := s1.filter (fun c => !(c = '.'))
  let s3 := s2.map (fun c => if c = ',' then '.' else c)
  decimalOfString s3

/-- `ValueParser._is_valid_value`: positive and between 0.01 and 1000000.00. -/
def is_valid_value (v : PyDecimal) : Bool :=
  if decLe v ⟨0, 0⟩ then false
  else if decLt v ⟨1, 2⟩ || decLt ⟨100000000, 2⟩ v then false
  else true

/-- `list(set(values))`: deduplicate by numeric equality.  The set iteration
order is unspecified in Python; only numeric membership and the maximum are
consumed downstream, so keeping first occurrences is an equivalent choice. -/
def dedupDec (l : List PyDecimal) : List PyDecimal :=
  go l []
where
  go : List PyDecimal → List PyDecimal → List PyDecimal
    | [], _ => []
    | x :: xs, seen =>
      if seen.any (decEqv x) then go xs seen else x :: go xs (x :: seen)

/-- `ValueParser._find_all_values`: run the three patterns over the whole
text in order, parse each captured group, keep the truthy valid ones
(`if value and self._is_valid_value(value)`), then deduplicate. -/
def find_all_values (text : List Char) : List PyDecimal :=
  let raw := scanAll matchP1 text ++ scanAll matchP2 text ++ scanAll matchP3 text
  let values := raw.filterMap fun g =>
    match parse_brazilian_currency g with
    | some v => if decTruthy v && is_valid_value v then some v else none
    | none => none
  dedupDec values

/-- One pattern step of the inner loop of `_find_total_value`:
`re.search(pattern, line)`; on a match, parse the group and accept it when it
is truthy and a member (`in`, numeric) of `values`. -/
def patternHit (m : Bool → List Char → Option (List Char × List Char))
    (line : List Char) (values : List PyDecimal) : Option PyDecimal :=
  match searchPat m line with
  | some g =>
    match parse_brazilian_currency g with
    | some v => if decTruthy v && values.any (decEqv v) then some v else none
    | none => none
  | none => none

/-- The three-pattern inner loop of `_find_total_value` on one line. -/
def lineHit (line : List Char) (values : List PyDecimal) : Option PyDecimal :=
  match patternHit matchP1 line values with
  | some v => some v
  | none =>
    match patternHit matchP2 line values with
    | some v => some v
    | none => patternHit matchP3 line values

/-- Outer loop of `_find_total_value`: first line containing a total keyword
whose own value patterns hit a member of `values`. -/
def findTotalAux : List (List Char) → List PyDecimal → Option PyDecimal
  | [], _ => none
  | l :: ls, values =>
    if TOTAL_KEYWORDS.any (fun k => hasSub l k) then
      match lineHit l values with
      | some v => some v
      | none => findTotalAux ls values
    else findTotalAux ls values

/-- `ValueParser._find_total_value`: lowercase the text, split into lines,
scan keyword-bearing lines. -/
def find_total_value (text : List Char) (values : List PyDecimal) :
    Option PyDecimal :=
  if values = [] then none
  else findTotalAux (splitLines (text.map pyLower)) values

/-- Python `max` over a list of decimals (first element wins ties, which
cannot arise after deduplication). -/
def pyMax : List PyDecimal → Option PyDecimal
  | [] => none
  | x :: xs => some (xs.foldl (fun acc y => if decLt acc y then y else acc) x)

/-- Python truthiness of `Optional[Decimal]`: `None` and zero are falsy. -/
def optTruthy : Option PyDecimal → Bool
  | none => false
  | some v => decTruthy v

/-- `ValueParser.extract_value`: `values = _find_all_values(text)`; `None`
when empty; the keyword total if truthy (`if total:`), else the largest
candidate (`max(values)`). -/
def extract_value (text : List Char) : Option PyDecimal :=
  if find_all_values text = [] then none
  else if optTruthy (find_total_value text (find_all_values text)) then
    find_total_value text (find_all_values text)
  else pyMax (find_all_values text)

/-- `ValueParser.parse_value`: first pattern whose `re.search` matches wins
(its parse result is returned even if `None`); otherwise parse the raw string
directly. -/
def parse_value (s : List Char) : Option PyDecimal :=
  match searchPat matchP1 s with
  | some g => parse_brazilian_currency g
  | none =>
    match searchPat matchP2 s with
    | some g => parse_brazilian_currency g
    | none =>
      match searchPat matchP3 s with
      | some g => parse_brazilian_currency g
      | none => parse_brazilian_currency s

/-! ## Confidence scorer (`app/services/ocr/confidence.py`) -/

/-- Round half to even to an integer (Python `round`), over exact rationals. -/
def roundHalfEven (x : ℚ) : ℤ :=
  let f := ⌊x⌋
  let r := x - f
  if r < 1 / 2 then f
  else if 1 / 2 < r then f + 1
  else if 2 ∣ f then f else f + 1

/-- Python `round(x, 2)` over exact rationals. -/
def roundTo2 (x : ℚ) : ℚ :=
  (roundHalfEven (x * 100) : ℚ) / 100

/-- The filtering loop of `calculate_confidence`: pair confidences with texts
(`zip` truncates to the shorter), drop pairs whose text is empty or
whitespace-only and pairs whose confidence is the sentinel `-1`. -/
def valid_confidences (confs : List ℤ) (texts : List (List Char)) : List ℤ :=
  (confs.zip texts).filterMap fun p =>
    if p.2 = [] || pyStrip p.2 = [] then none
    else if p.1 = -1 then none
    else some p.1

/-- `calculate_confidence`: mean of the valid confidences, normalised from the
0–100 scale, clamped to `[0, 1]`, rounded to two decimal places; `0.0` when no
data survives filtering. -/
def calculate_confidence (confs : List ℤ) (texts : List (List Char)) : ℚ :=
  if confs = [] || texts = [] then 0
  else
    let valid := valid_confidences confs texts
    if valid = [] then 0
    else
      let avg : ℚ := ((valid.map (fun c => (c : ℚ))).sum) / valid.length
      let normalized := avg / 100
      let clamped := max 0 (min 1 normalized)
      roundTo2 clamped

/-! ## Currency formatter (`app/utils/formatters/currency.py`) -/

/-- Decimal digits of a natural number, most significant first. -/
def natDigitsAux : ℕ → ℕ → List Char
  | 0, _ => []
  | _ + 1, 0 => []
  | f + 1, n => natDigitsAux f (n / 10) ++ [Char.ofNat ('0'.toNat + n % 10)]

def natDigits (n : ℕ) : List Char :=
  if n = 0 then ['0'] else natDigitsAux (n + 1) n

/-- Insert `,` every three characters of a reversed digit list
(thousands grouping of `f"{v:,}"`). -/
def chunkRev : List Char → List Char
  | a :: b :: c :: d :: t => a :: b :: c :: ',' :: chunkRev (d :: t)
  | l => l

/-- Floor division rounded half to even (for quantising a mantissa), `b > 0`. -/
def rheDiv (a b : ℤ) : ℤ :=
  let f := Int.fdiv a b
  let r := a - f * b
  if 2 * r < b then f
  else if b < 2 * r then f + 1
  else if 2 ∣ f then f else f + 1

/-- Value of a `PyDecimal` in cents, rounded half to even (the quantisation
`f"{value:,.2f}"` performs; exact when the scale is at most 2). -/
def toCents (v : PyDecimal) : ℤ :=
  if v.sc ≤ 2 then v.man * 10 ^ (2 - v.sc)
  else rheDiv v.man (10 ^ (v.sc - 2))

/-- Two-digit rendering of a number below 100. -/
def twoDigits (n : ℕ) : List Char :=
  [Char.ofNat ('0'.toNat + n / 10 % 10), Char.ofNat ('0'.toNat + n % 10)]

/-- `f"{value:,.2f}"`: sign, comma-grouped integer part, `.`, two decimals. -/
def pyFormatCommaF2 (v : PyDecimal) : List Char :=
  let cents := toCents v
  let sgn : List Char := if cents < 0 then ['-'] else []
  let a := cents.natAbs
  sgn ++ (chunkRev (natDigits (a / 100)).reverse).reverse ++
    '.' :: twoDigits (a % 100)

/-- Python `str.replace`: replace every non-overlapping occurrence of `nd`
(nonempty here) left to right. -/
def replaceAllAux (nd rp : List Char) : ℕ → List Char → List Char
  | 0, s => s
  | f + 1, s =>
    match s with
    | [] => []
    | c :: t =>
      if startsWith nd s then rp ++ replaceAllAux nd rp f (s.drop nd.length)
      else c :: replaceAllAux nd rp f t

def replaceAll (s nd rp : List Char) : List Char :=
  replaceAllAux nd rp (s.length + 1) s

/-- `format_brl`: format with two decimals and comma thousands grouping, then
swap `,` and `.` through the `TEMP` placeholder, and prefix `R$ `. -/
def format_brl (value : PyDecimal) : List Char :=
  let formatted := pyFormatCommaF2 value
  let f1 := replaceAll formatted ",".toList "TEMP".toList
  let f2 := replaceAll f1 ".".toList ",".toList
  let f3 := replaceAll f2 "TEMP".toList ".".toList
  "R$ ".toList ++ f3

/-! ## Orchestrator (`app/services/ocr/extractor.py`) and preprocessor
(`app/services/ocr/preprocessor.py`) -/

/-- The result record of `OCRExtractor.extract_receipt_data`. -/
structure ExtractionResult where
  text : List Char
  value : Option PyDecimal
  confidence : ℚ
deriving DecidableEq

/-- `OCRProcessingException`, carrying its `details["error"]` message. -/
inductive OCRFailure where
  | processingError (errMsg : List Char)
deriving DecidableEq

/-- The decision stage of `OCRExtractor.extract_receipt_data` after text
recognition has produced `text` and `confidence`: reject recognised text whose
trimmed length is under 10 characters (`if not text or len(text.strip()) < 10`)
as a processing error, otherwise return the trimmed text, the parsed value and
the confidence. -/
def extract_receipt_data (text : List Char) (confidence : ℚ) :
    Except OCRFailure ExtractionResult :=
  if text = [] || decide ((pyStrip text).length < 10) then
    Except.error (OCRFailure.processingError "Insufficient text extracted".toList)
  else
    Except.ok ⟨pyStrip text, extract_value text, confidence⟩

/-- The `try` body of `OCRPreprocessor.preprocess_image`.  The imaging stages
(decode, RGBA/mode normalisation, grayscale, contrast enhancement, median
filter, sharpening, re-encode) are performed by the external imaging library,
so each is taken as an abstract fallible function over an abstract image type
`α`; a raised exception is an `Except.error`. -/
def preprocessPipeline {α : Type} (decode : List ℕ → Except (List Char) α)
    (normalizeMode grayscale contrast denoise sharpen : α → Except (List Char) α)
    (encode : α → Except (List Char) (List ℕ)) (image_data : List ℕ) :
    Except (List Char) (List ℕ) := do
  let img ← decode image_data
  let img ← normalizeMode img
  let img ← grayscale img
  let img ← contrast img
  let img ← denoise img
  let img ← sharpen img
  encode img

/-- `OCRPreprocessor.preprocess_image`: run the pipeline; the `except` clause
of the source swallows any stage failure and returns the original bytes.  It
is a total function: it never fails. -/
def preprocess_image {α : Type} (decode : List ℕ → Except (List Char) α)
    (normalizeMode grayscale contrast denoise sharpen : α → Except (List Char) α)
    (encode : α → Except (List Char) (List ℕ)) (image_data : List ℕ) :
    List ℕ :=
  match preprocessPipeline decode normalizeMode grayscale contrast denoise
      sharpen encode image_data with
  | Except.ok out => out
  | Except.error _ => image_data

/-! ## Helper lemmas -/

theorem decLe_iff (a b : PyDecimal) : decLe a b = true ↔ a.val ≤ b.val := by
  unfold decLe PyDecimal.val
  rw [decide_eq_true_iff, div_le_div_iff₀ (by positivity) (by positivity)]
  constructor
  · intro h
    exact_mod_cast h
  · intro h
    exact_mod_cast h

theorem decLt_iff (a b : PyDecimal) : decLt a b = true ↔ a.val < b.val := by
  unfold decLt PyDecimal.val
  rw [decide_eq_true_iff, div_lt_div_iff₀ (by positivity) (by positivity)]
  constructor
  · intro h
    exact_mod_cast h
  · intro h
    exact_mod_cast h

theorem decEqv_iff (a b : PyDecimal) : decEqv a b = true ↔ a.val = b.val := by
  unfold decEqv PyDecimal.val
  rw [decide_eq_true_iff, div_eq_div_iff (by positivity) (by positivity)]
  constructor
  · intro h
    exact_mod_cast h
  · intro h
    exact_mod_cast h

theorem decLt_false_iff (a b : PyDecimal) : decLt a b = false ↔ b.val ≤ a.val := by
  rw [← not_lt, ← decLt_iff]
  simp

theorem roundHalfEven_intCast (k : ℤ) : roundHalfEven (k : ℚ) = k := by
  unfold roundHalfEven
  simp only [Int.floor_intCast, sub_self]
  norm_num

theorem roundTo2_int_div (k : ℤ) : roundTo2 ((k : ℚ) / 100) = (k : ℚ) / 100 := by
  unfold roundTo2
  rw [div_mul_cancel₀ _ (by norm_num : (100 : ℚ) ≠ 0), roundHalfEven_intCast]

theorem roundHalfEven_bounds {x : ℚ} (h0 : 0 ≤ x) (h1 : x ≤ 100) :
    0 ≤ roundHalfEven x ∧ roundHalfEven x ≤ 100 := by
  unfold roundHalfEven
  have hf0 : 0 ≤ ⌊x⌋ := Int.floor_nonneg.mpr h0
  have hf1 : ⌊x⌋ ≤ 100 := by
    have := Int.floor_le_floor h1
    simpa using this
  by_cases hlt : x - ⌊x⌋ < 1 / 2
  · simp only [if_pos hlt]
    exact ⟨hf0, hf1⟩
  · have hr : 1 / 2 ≤ x - ⌊x⌋ := le_of_not_lt hlt
    have hf99 : ⌊x⌋ ≤ 99 := by
      by_contra hc
      have h100 : (100 : ℤ) ≤ ⌊x⌋ := by omega
      have : (100 : ℚ) ≤ (⌊x⌋ : ℚ) := by exact_mod_cast h100
      have hx0 : x - ⌊x⌋ ≤ 0 := by linarith
      linarith
    simp only [if_neg hlt]
    split
    · omega
    · split
      · omega
      · omega

theorem roundTo2_bounds {x : ℚ} (h0 : 0 ≤ x) (h1 : x ≤ 1) :
    0 ≤ roundTo2 x ∧ roundTo2 x ≤ 1 := by
  have h := roundHalfEven_bounds (x := x * 100) (by positivity) (by linarith)
  unfold roundTo2
  constructor
  · have : (0 : ℚ) ≤ (roundHalfEven (x * 100) : ℚ) := by exact_mod_cast h.1
    positivity
  · rw [div_le_one (by norm_num)]
    exact_mod_cast h.2

theorem dedupDec_go_subset :
    ∀ (l seen : List PyDecimal) (x : PyDecimal), x ∈ dedupDec.go l seen → x ∈ l := by
  intro l
  induction l with
  | nil => intro seen x h; simp [dedupDec.go] at h
  | cons y ys ih =>
    intro seen x h
    rw [dedupDec.go] at h
    by_cases hs : seen.any (decEqv y)
    · rw [if_pos hs] at h
      exact List.mem_cons_of_mem _ (ih seen x h)
    · rw [if_neg hs] at h
      rcases List.mem_cons.mp h with h1 | h1
      · exact h1 ▸ List.mem_cons_self _ _
      · exact List.mem_cons_of_mem _ (ih (y :: seen) x h1)

theorem mem_dedupDec {l : List PyDecimal} {x : PyDecimal}
    (h : x ∈ dedupDec l) : x ∈ l :=
  dedupDec_go_subset l [] x h

/-- Every candidate surviving `_find_all_values` passed the truthiness and
validity filter. -/
theorem mem_find_all_values {t : List Char} {v : PyDecimal}
    (h : v ∈ find_all_values t) :
    decTruthy v = true ∧ is_valid_value v = true := by
  unfold find_all_values at h
  have h2 := mem_dedupDec h
  rcases List.mem_filterMap.mp h2 with ⟨g, _, hg⟩
  rcases hp : parse_brazilian_currency g with _ | w
  · rw [hp] at hg; simp at hg
  · rw [hp] at hg
    have hg2 : (if (decTruthy w && is_valid_value w) = true then some w else none)
        = some v := hg
    by_cases hc : (decTruthy w && is_valid_value w) = true
    · rw [if_pos hc] at hg2
      cases hg2
      simp only [Bool.and_eq_true] at hc
      exact hc
    · rw [if_neg hc] at hg2; cases hg2

/-- `_is_valid_value` enforces the sane range. -/
theorem is_valid_value_bounds {v : PyDecimal} (h : is_valid_value v = true) :
    0 < v.val ∧ 1 / 100 ≤ v.val ∧ v.val ≤ 1000000 := by
  unfold is_valid_value at h
  by_cases h1 : decLe v ⟨0, 0⟩
  · rw [if_pos h1] at h; cases h
  · rw [if_neg h1] at h
    by_cases h2 : decLt v ⟨1, 2⟩ || decLt ⟨100000000, 2⟩ v
    · rw [if_pos h2] at h; cases h
    · have h2f : (decLt v ⟨1, 2⟩ || decLt ⟨100000000, 2⟩ v) = false :=
        eq_false_of_ne_true h2
      simp only [Bool.or_eq_false_iff] at h2f
      rcases h2f with ⟨ha, hb⟩
      have hv0 : ¬ (v.val ≤ (PyDecimal.mk 0 0).val) := fun hc => h1 ((decLe_iff _ _).mpr hc)
      have hva : (PyDecimal.mk 1 2).val ≤ v.val := (decLt_false_iff _ _).mp ha
      have hvb : v.val ≤ (PyDecimal.mk 100000000 2).val := (decLt_false_iff _ _).mp hb
      have e0 : (PyDecimal.mk 0 0).val = 0 := by norm_num [PyDecimal.val]
      have e1 : (PyDecimal.mk 1 2).val = 1 / 100 := by norm_num [PyDecimal.val]
      have e2 : (PyDecimal.mk 100000000 2).val = 1000000 := by norm_num [PyDecimal.val]
      rw [e0] at hv0
      rw [e1] at hva
      rw [e2] at hvb
      exact ⟨lt_of_not_le hv0, hva, hvb⟩

/-- The value accepted by one pattern step of `_find_total_value` is a
numeric member of the candidate set. -/
theorem patternHit_eqv {m : Bool → List Char → Option (List Char × List Char)}
    {line : List Char} {values : List PyDecimal} {v : PyDecimal}
    (h : patternHit m line values = some v) :
    ∃ w ∈ values, decEqv v w = true := by
  unfold patternHit at h
  rcases hs : searchPat m line with _ | g
  · rw [hs] at h; cases h
  · rw [hs] at h
    have h1 : (match parse_brazilian_currency g with
        | some u => if (decTruthy u && values.any (decEqv u)) = true
                    then some u else none
        | none => none) = some v := h
    rcases hp : parse_brazilian_currency g with _ | u
    · rw [hp] at h1; cases h1
    · rw [hp] at h1
      have h2 : (if (decTruthy u && values.any (decEqv u)) = true
          then some u else none) = some v := h1
      by_cases hc : (decTruthy u && values.any (decEqv u)) = true
      · rw [if_pos hc] at h2
        cases h2
        simp only [Bool.and_eq_true] at hc
        exact List.any_eq_true.mp hc.2
      · rw [if_neg hc] at h2; cases h2

theorem lineHit_eqv {line : List Char} {values : List PyDecimal} {v : PyDecimal}
    (h : lineHit line values = some v) : ∃ w ∈ values, decEqv v w = true := by
  unfold lineHit at h
  rcases h1 : patternHit matchP1 line values with _ | u
  · rw [h1] at h
    rcases h2 : patternHit matchP2 line values with _ | u
    · rw [h2] at h
      exact patternHit_eqv h
    · rw [h2] at h
      cases h
      exact patternHit_eqv h2
  · rw [h1] at h
    cases h
    exact patternHit_eqv h1

theorem findTotalAux_eqv :
    ∀ (lines : List (List Char)) (values : List PyDecimal) (v : PyDecimal),
      findTotalAux lines values = some v → ∃ w ∈ values, decEqv v w = true := by
  intro lines
  induction lines with
  | nil => intro values v h; cases h
  | cons l ls ih =>
    intro values v h
    rw [findTotalAux] at h
    by_cases hk : TOTAL_KEYWORDS.any (fun k => hasSub l k)
    · rw [if_pos hk] at h
      rcases hl : lineHit l values with _ | u
      · rw [hl] at h
        exact ih values v h
      · rw [hl] at h
        cases h
        exact lineHit_eqv hl
    · rw [if_neg hk] at h
      exact ih values v h

theorem find_total_value_eqv {text : List Char} {values : List PyDecimal}
    {v : PyDecimal} (h : find_total_value text values = some v) :
    ∃ w ∈ values, decEqv v w = true := by
  unfold find_total_value at h
  by_cases he : values = []
  · rw [if_pos he] at h; cases h
  · rw [if_neg he] at h
    exact findTotalAux_eqv _ values v h

theorem foldl_pick_acc_le (xs : List PyDecimal) :
    ∀ acc : PyDecimal,
      acc.val ≤ (xs.foldl (fun acc y => if decLt acc y then y else acc) acc).val := by
  induction xs with
  | nil => intro acc; exact le_refl _
  | cons y ys ih =>
    intro acc
    rw [List.foldl_cons]
    refine le_trans ?_ (ih (if decLt acc y then y else acc))
    by_cases hd : decLt acc y
    · rw [if_pos hd]
      exact le_of_lt ((decLt_iff _ _).mp hd)
    · rw [if_neg hd]

theorem foldl_pick_mem (xs : List PyDecimal) :
    ∀ acc : PyDecimal,
      (xs.foldl (fun acc y => if decLt acc y then y else acc) acc) = acc ∨
        (xs.foldl (fun acc y => if decLt acc y then y else acc) acc) ∈ xs := by
  induction xs with
  | nil => intro acc; exact Or.inl rfl
  | cons y ys ih =>
    intro acc
    rw [List.foldl_cons]
    rcases ih (if decLt acc y then y else acc) with h | h
    · rw [h]
      by_cases hd : decLt acc y
      · rw [if_pos hd]
        exact Or.inr (List.mem_cons_self _ _)
      · rw [if_neg hd]
        exact Or.inl rfl
    · exact Or.inr (List.mem_cons_of_mem _ h)

theorem foldl_pick_ge (xs : List PyDecimal) :
    ∀ (acc w : PyDecimal), w ∈ xs →
      w.val ≤ (xs.foldl (fun acc y => if decLt acc y then y else acc) acc).val := by
  induction xs with
  | nil => intro acc w h; cases h
  | cons y ys ih =>
    intro acc w h
    rw [List.foldl_cons]
    rcases List.mem_cons.mp h with h1 | h1
    · subst h1
      refine le_trans ?_ (foldl_pick_acc_le ys (if decLt acc w then w else acc))
      by_cases hd : decLt acc w
      · rw [if_pos hd]
      · rw [if_neg hd]
        exact (decLt_false_iff _ _).mp (eq_false_of_ne_true hd)
    · exact ih _ w h1

theorem pyMax_spec {l : List PyDecimal} {m : PyDecimal} (h : pyMax l = some m) :
    m ∈ l ∧ ∀ w ∈ l, w.val ≤ m.val := by
  rcases l with _ | ⟨x, xs⟩
  · cases h
  · rw [pyMax] at h
    cases h
    constructor
    · rcases foldl_pick_mem xs x with h | h
      · rw [h]; exact List.mem_cons_self _ _
      · exact List.mem_cons_of_mem _ h
    · intro w hw
      rcases List.mem_cons.mp hw with h1 | h1
      · subst h1
        exact foldl_pick_acc_le xs w
      · exact foldl_pick_ge xs x w h1

theorem digitVal_le {c : Char} (h : isPyDigit c = true) : digitVal c ≤ 9 := by
  simp only [isPyDigit, Bool.and_eq_true, decide_eq_true_iff] at h
  obtain ⟨h1, h2⟩ := h
  simp only [Char.le_def, UInt32.le_def, BitVec.le_def] at h1 h2
  unfold digitVal
  simp only [Char.toNat, UInt32.toNat]
  have e0 : ('0'.val.toBitVec.toNat : ℕ) = 48 := rfl
  have e9 : ('9'.val.toBitVec.toNat : ℕ) = 57 := rfl
  rw [e0] at h1
  rw [e9] at h2
  rw [e0]
  omega

theorem space_not_digit {c : Char} (h : isPySpace c = true) :
    isPyDigit c = false := by
  simp only [isPySpace, Bool.or_eq_true, decide_eq_true_iff] at h
  rcases h with ((((h | h) | h) | h) | h) | h <;> subst h <;> decide

theorem digit_not_space {c : Char} (h : isPyDigit c = true) :
    isPySpace c = false := by
  cases hs : isPySpace c
  · rfl
  · rw [space_not_digit hs] at h
    cases h

theorem digit_ne_dot {c : Char} (h : isPyDigit c = true) : c ≠ '.' := by
  intro he
  subst he
  cases h

theorem digit_ne_comma {c : Char} (h : isPyDigit c = true) : c ≠ ',' := by
  intro he
  subst he
  cases h

theorem dropWhile_eq_self_of {p : Char → Bool} :
    ∀ {s : List Char}, (∀ c ∈ s, p c = false) → s.dropWhile p = s := by
  intro s h
  cases s with
  | nil => rfl
  | cons c t =>
    rw [List.dropWhile_cons, h c (List.mem_cons_self _ _)]
    simp

theorem pyStrip_no_space {s : List Char} (h : ∀ c ∈ s, isPySpace c = false) :
    pyStrip s = s := by
  unfold pyStrip
  rw [dropWhile_eq_self_of h,
    dropWhile_eq_self_of (fun c hc => h c (List.mem_reverse.mp hc)),
    List.reverse_reverse]

theorem digitRun_all : ∀ {l : List Char}, (∀ c ∈ l, isPyDigit c = true) →
    digitRun l = (l, []) := by
  intro l
  induction l with
  | nil => intro _; rfl
  | cons c t ih =>
    intro h
    rw [digitRun, if_pos (h c (List.mem_cons_self _ _)),
      ih (fun x hx => h x (List.mem_cons_of_mem _ hx))]

theorem digitRun_append {ds : List Char} {x : Char} {rest : List Char}
    (h : ∀ c ∈ ds, isPyDigit c = true) (hx : isPyDigit x = false) :
    digitRun (ds ++ x :: rest) = (ds, x :: rest) := by
  induction ds with
  | nil => rw [List.nil_append, digitRun, hx]; rfl
  | cons c t ih =>
    rw [List.cons_append, digitRun, if_pos (h c (List.mem_cons_self _ _)),
      ih (fun y hy => h y (List.mem_cons_of_mem _ hy))]

theorem natOfDigits_foldl_lt :
    ∀ (l : List Char), (∀ c ∈ l, isPyDigit c = true) →
      ∀ acc B : ℕ, acc < B →
        l.foldl (fun a c => a * 10 + digitVal c) acc < B * 10 ^ l.length := by
  intro l
  induction l with
  | nil => intro _ acc B h; simpa using h
  | cons c t ih =>
    intro h acc B hacc
    rw [List.foldl_cons, List.length_cons, pow_succ]
    have hd : digitVal c ≤ 9 := digitVal_le (h c (List.mem_cons_self _ _))
    have : acc * 10 + digitVal c < B * 10 := by omega
    have := ih (fun x hx => h x (List.mem_cons_of_mem _ hx))
      (acc * 10 + digitVal c) (B * 10) this
    calc List.foldl (fun a c => a * 10 + digitVal c) (acc * 10 + digitVal c) t
        < B * 10 * 10 ^ t.length := this
      _ = B * (10 ^ t.length * 10) := by ring

theorem natOfDigits_lt {l : List Char} (h : ∀ c ∈ l, isPyDigit c = true) :
    natOfDigits l < 10 ^ l.length := by
  have := natOfDigits_foldl_lt l h 0 1 (by omega)
  simpa [natOfDigits] using this

theorem takeDigits_shape :
    ∀ (n : ℕ) (s ds r : List Char), takeDigits n s = some (ds, r) →
      ds.length = n ∧ ∀ c ∈ ds, isPyDigit c = true := by
  intro n
  induction n with
  | zero =>
    intro s ds r h
    rw [takeDigits] at h
    cases h
    exact ⟨rfl, by intro c hc; cases hc⟩
  | succ m ih =>
    intro s ds r h
    cases s with
    | nil => cases h
    | cons c cs =>
      rw [takeDigits] at h
      by_cases hd : isPyDigit c = true
      · rw [if_pos hd] at h
        rcases ht : takeDigits m cs with _ | ⟨d2, r2⟩
        · rw [ht] at h; cases h
        · rw [ht] at h
          cases h
          obtain ⟨hl, hall⟩ := ih _ _ _ ht
          refine ⟨by simp [hl], ?_⟩
          intro x hx
          rcases List.mem_cons.mp hx with h1 | h1
          · exact h1 ▸ hd
          · exact hall x h1
      · rw [if_neg hd] at h; cases h

theorem tryTail_shape {s t r : List Char} (h : tryTail s = some (t, r)) :
    ∃ a b, t = [',', a, b] ∧ isPyDigit a = true ∧ isPyDigit b = true := by
  unfold tryTail at h
  split at h
  · next a b r2 =>
    by_cases hab : (isPyDigit a && isPyDigit b) = true
    · rw [if_pos hab] at h
      cases h
      simp only [Bool.and_eq_true] at hab
      exact ⟨a, b, rfl, hab.1, hab.2⟩
    · rw [if_neg hab] at h; cases h
  · cases h

theorem tryIntThen_tryTail_shape :
    ∀ (d : ℕ) (s g r : List Char), tryIntThen tryTail d s = some (g, r) →
      ∃ ds a b, g = ds ++ [',', a, b] ∧ 1 ≤ ds.length ∧ ds.length ≤ d ∧
        (∀ c ∈ ds, isPyDigit c = true) ∧
        isPyDigit a = true ∧ isPyDigit b = true := by
  intro d
  induction d with
  | zero => intro s g r h; cases h
  | succ m ih =>
    intro s g r h
    rw [tryIntThen] at h
    rcases htd : takeDigits (m + 1) s with _ | ⟨ds0, r0⟩
    · rw [htd] at h
      have h2 : tryIntThen tryTail m s = some (g, r) := h
      obtain ⟨ds, a, b, hg, h1, hle, h3, h4, h5⟩ := ih s g r h2
      exact ⟨ds, a, b, hg, h1, Nat.le_succ_of_le hle, h3, h4, h5⟩
    · rw [htd] at h
      have h2 : (match tryTail r0 with
          | some (g0, rest0) => some (ds0 ++ g0, rest0)
          | none => tryIntThen tryTail m s) = some (g, r) := h
      rcases htt : tryTail r0 with _ | ⟨t0, rest0⟩
      · rw [htt] at h2
        obtain ⟨ds, a, b, hg, h1, hle, h3, h4, h5⟩ := ih s g r h2
        exact ⟨ds, a, b, hg, h1, Nat.le_succ_of_le hle, h3, h4, h5⟩
      · rw [htt] at h2
        cases h2
        obtain ⟨hlen, hall⟩ := takeDigits_shape (m + 1) s ds0 r0 htd
        obtain ⟨a, b, ht, ha, hb⟩ := tryTail_shape htt
        exact ⟨ds0, a, b, by rw [ht], by omega, by omega, hall, ha, hb⟩

theorem groupP3_shape {s g r : List Char} (h : groupP3 s = some (g, r)) :
    ∃ ds a b, g = ds ++ [',', a, b] ∧ 1 ≤ ds.length ∧ ds.length ≤ 4 ∧
      (∀ c ∈ ds, isPyDigit c = true) ∧
      isPyDigit a = true ∧ isPyDigit b = true := by
  unfold groupP3 at h
  exact tryIntThen_tryTail_shape 4 s g r h

theorem boundedCore_group
    {grp : List Char → Option (List Char × List Char)} {s g r : List Char}
    (h : boundedCore grp s = some (g, r)) :
    ∃ r2, grp s = some (g, r2) := by
  unfold boundedCore at h
  rcases hg : grp s with _ | ⟨g0, r0⟩
  · rw [hg] at h; cases h
  · rw [hg] at h
    have h2 : (match matchPost r0 with
        | some r2 => some (g0, r2)
        | none => none) = some (g, r) := h
    rcases hp : matchPost r0 with _ | r2
    · rw [hp] at h2; cases h2
    · rw [hp] at h2
      cases h2
      exact ⟨r0, rfl⟩

theorem matchBoundedAt_group
    {grp : List Char → Option (List Char × List Char)}
    {bos : Bool} {s g r : List Char}
    (h : matchBoundedAt grp bos s = some (g, r)) :
    ∃ s2 r2, grp s2 = some (g, r2) := by
  unfold matchBoundedAt at h
  rcases hv : (if bos then boundedCore grp s else none) with _ | res
  · rw [hv] at h
    rcases s with _ | ⟨c, cs⟩
    · cases h
    · have h3 : (if isPySpace c then boundedCore grp cs else none)
          = some (g, r) := h
      by_cases hsp : isPySpace c = true
      · rw [if_pos hsp] at h3
        obtain ⟨r2, hg⟩ := boundedCore_group h3
        exact ⟨cs, r2, hg⟩
      · rw [if_neg hsp] at h3; cases h3
  · rw [hv] at h
    have h2 : some res = some (g, r) := h
    cases h2
    by_cases hb : bos = true
    · rw [hb, if_pos rfl] at hv
      obtain ⟨r2, hg⟩ := boundedCore_group hv
      exact ⟨s, r2, hg⟩
    · rw [Bool.not_eq_true] at hb
      rw [hb] at hv
      simp at hv

theorem scanAux_mem {m : Bool → List Char → Option (List Char × List Char)} :
    ∀ (f : ℕ) (bos : Bool) (s g : List Char),
      g ∈ scanAux m f bos s → ∃ bos2 s2 r2, m bos2 s2 = some (g, r2) := by
  intro f
  induction f with
  | zero => intro bos s g h; cases h
  | succ k ih =>
    intro bos s g h
    have h0 : g ∈ (match m bos s, s with
        | some (g0, rest), _ => g0 :: scanAux m k false rest
        | none, [] => []
        | none, _ :: cs => scanAux m k false cs) := h
    rcases hm : m bos s with _ | ⟨g0, rest⟩
    · rw [hm] at h0
      cases s with
      | nil => cases h0
      | cons c cs => exact ih false cs g h0
    · rw [hm] at h0
      rcases List.mem_cons.mp h0 with h1 | h1
      · exact ⟨bos, s, rest, h1 ▸ hm⟩
      · exact ih false rest g h1

theorem scanAll_mem {m : Bool → List Char → Option (List Char × List Char)}
    {s g : List Char} (h : g ∈ scanAll m s) :
    ∃ bos2 s2 r2, m bos2 s2 = some (g, r2) :=
  scanAux_mem _ _ _ _ h

theorem decNum_digits_frac {ds : List Char} {a b : Char}
    (hds : ∀ c ∈ ds, isPyDigit c = true) (hne : ds ≠ [])
    (ha : isPyDigit a = true) (hb : isPyDigit b = true) :
    decNum (ds ++ ['.', a, b]) = some ⟨(natOfDigits (ds ++ [a, b]) : ℤ), 2⟩ := by
  have hrun : digitRun (ds ++ ['.', a, b]) = (ds, ['.', a, b]) :=
    digitRun_append hds (by decide)
  have hab : digitRun [a, b] = ([a, b], []) := by
    apply digitRun_all
    intro c hc
    rcases List.mem_cons.mp hc with h1 | h1
    · exact h1 ▸ ha
    · rcases List.mem_cons.mp h1 with h2 | h2
      · exact h2 ▸ hb
      · cases h2
  unfold decNum
  rw [hrun]
  simp [hab, hne]

/-- Parsing a captured group of shape `digits , digit digit` yields the
two-decimal value made of its digits. -/
theorem parse_group_shape {ds : List Char} {a b : Char}
    (hds : ∀ c ∈ ds, isPyDigit c = true) (hne : ds ≠ [])
    (ha : isPyDigit a = true) (hb : isPyDigit b = true) :
    parse_brazilian_currency (ds ++ [',', a, b]) =
      some ⟨(natOfDigits (ds ++ [a, b]) : ℤ), 2⟩ := by
  have hmem : ∀ c ∈ ds ++ [',', a, b], isPySpace c = false := by
    intro c hc
    rcases List.mem_append.mp hc with h1 | h1
    · exact digit_not_space (hds c h1)
    · rcases List.mem_cons.mp h1 with h2 | h2
      · subst h2; decide
      · rcases List.mem_cons.mp h2 with h3 | h3
        · exact h3 ▸ digit_not_space ha
        · rcases List.mem_cons.mp h3 with h4 | h4
          · exact h4 ▸ digit_not_space hb
          · cases h4
  unfold parse_brazilian_currency
  rw [pyStrip_no_space hmem]
  have hfil : (ds ++ [',', a, b]).filter (fun c => !(c = '.')) =
      ds ++ [',', a, b] := by
    rw [List.filter_eq_self]
    intro c hc
    rcases List.mem_append.mp hc with h1 | h1
    · simp [digit_ne_dot (hds c h1)]
    · rcases List.mem_cons.mp h1 with h2 | h2
      · subst h2; decide
      · rcases List.mem_cons.mp h2 with h3 | h3
        · subst h3; simp [digit_ne_dot ha]
        · rcases List.mem_cons.mp h3 with h4 | h4
          · subst h4; simp [digit_ne_dot hb]
          · cases h4
  simp only [hfil]
  have hmap : (ds ++ [',', a, b]).map (fun c => if c = ',' then '.' else c) =
      ds ++ ['.', a, b] := by
    rw [List.map_append]
    congr 1
    · have hid : ∀ c ∈ ds, (if c = ',' then '.' else c) = c :=
        fun c hc => if_neg (digit_ne_comma (hds c hc))
      rw [List.map_congr_left hid]
      simp
    · simp [digit_ne_comma ha, digit_ne_comma hb]
  simp only [hmap]
  rcases ds with _ | ⟨d0, ds2⟩
  · exact absurd rfl hne
  · have hd0 : isPyDigit d0 = true := hds d0 (List.mem_cons_self _ _)
    have hminus : d0 ≠ '-' := by intro he; subst he; cases hd0
    have hplus : d0 ≠ '+' := by intro he; subst he; cases hd0
    rw [List.cons_append]
    unfold decimalOfString
    split
    · next t heq =>
      exact absurd (List.cons.inj heq).1 hminus
    · next t heq =>
      exact absurd (List.cons.inj heq).1 hplus
    · next t h1 h2 =>
      rw [← List.cons_append]
      exact decNum_digits_frac hds hne ha hb

theorem zip_take_min {α β : Type} :
    ∀ (a : List α) (b : List β),
      (a.take (min a.length b.length)).zip (b.take (min a.length b.length)) =
        a.zip b := by
  intro a
  induction a with
  | nil => intro b; simp
  | cons x xs ih =>
    intro b
    rcases b with _ | ⟨y, ys⟩
    · simp
    · simp only [List.length_cons, Nat.succ_min_succ, List.take_succ_cons,
        List.zip_cons_cons]
      rw [ih ys]

theorem valid_confidences_take (confs : List ℤ) (texts : List (List Char)) :
    valid_confidences (confs.take (min confs.length texts.length))
        (texts.take (min confs.length texts.length)) =
      valid_confidences confs texts := by
  unfold valid_confidences
  rw [zip_take_min]

theorem valid_confidences_ne_nil {confs : List ℤ} {texts : List (List Char)}
    (h : valid_confidences confs texts ≠ []) : confs ≠ [] ∧ texts ≠ [] := by
  constructor
  · intro he
    subst he
    simp [valid_confidences] at h
  · intro he
    subst he
    simp [valid_confidences] at h

theorem calc_conf_zero {confs : List ℤ} {texts : List (List Char)}
    (h : valid_confidences confs texts = []) :
    calculate_confidence confs texts = 0 := by
  unfold calculate_confidence
  by_cases hg : (confs = [] || texts = []) = true
  · rw [if_pos hg]
  · rw [if_neg hg]
    simp only [h, if_pos]

theorem calc_conf_formula {confs : List ℤ} {texts : List (List Char)}
    (h : valid_confidences confs texts ≠ []) :
    calculate_confidence confs texts =
      roundTo2 (max 0 (min 1
        ((((valid_confidences confs texts).map (fun c => (c : ℚ))).sum /
          (valid_confidences confs texts).length) / 100))) := by
  obtain ⟨hc, ht⟩ := valid_confidences_ne_nil h
  unfold calculate_confidence
  rw [if_neg (by simp [hc, ht])]
  simp only [h, if_neg, reduceIte]

/-- Text used by witnesses: 50 characters, no digits, survives trimming. -/
def sampleLongText : List Char :=
  "Recibo de pagamento referente ao mes de dezembro a".toList

/-! ## Claim theorems -/

/-- C1 (counterexample): on the text with the `Subtotal 50,00` line first and
the `Total 125,50` line second, `extract_value` returns 50.00, not 125.50 —
the substring keyword check matches `total` inside `subtotal`, and the first
keyword-bearing line wins. -/
theorem extract_value_subtotal_first_counterexample :
    extract_value "Subtotal 50,00\nTotal 125,50".toList = some ⟨5000, 2⟩ ∧
    (PyDecimal.mk 5000 2).val = 50 ∧ ((50 : ℚ) ≠ 1255 / 10) :=
  ⟨by decide, by norm_num [PyDecimal.val], by norm_num⟩

/-- C1 (amended): when the `Total 125,50` line precedes the `Subtotal 50,00`
line, the keyword-anchored match wins over the magnitude fallback and
`extract_value` returns 125.50. -/
theorem extract_value_keyword_line_order :
    extract_value "Total 125,50\nSubtotal 50,00".toList = some ⟨12550, 2⟩ ∧
    (PyDecimal.mk 12550 2).val = 1255 / 10 :=
  ⟨by decide, by norm_num [PyDecimal.val]⟩

/-- C2: `calculate_confidence` returns 0.0 when every token is filtered out
(empty or whitespace-only text, or sentinel confidence −1); otherwise it
returns the arithmetic mean of the surviving confidences divided by 100,
clamped to `[0, 1]` and rounded to two decimal places; in particular, with
exactly one valid token of confidence `c` on the 0–100 scale the score is
`c / 100`. -/
theorem calculate_confidence_spec (confs : List ℤ) (texts : List (List Char)) :
    (valid_confidences confs texts = [] →
      calculate_confidence confs texts = 0) ∧
    (valid_confidences confs texts ≠ [] →
      calculate_confidence confs texts =
        roundTo2 (max 0 (min 1
          ((((valid_confidences confs texts).map (fun c => (c : ℚ))).sum /
            (valid_confidences confs texts).length) / 100)))) ∧
    (∀ c : ℤ, 0 ≤ c → c ≤ 100 → valid_confidences confs texts = [c] →
      calculate_confidence confs texts = (c : ℚ) / 100) := by
  refine ⟨fun h => calc_conf_zero h, fun h => calc_conf_formula h, ?_⟩
  intro c hc0 hc100 hv
  rw [calc_conf_formula (by rw [hv]; simp), hv]
  norm_num
  have hle : (c : ℚ) / 100 ≤ 1 := by
    rw [div_le_one (by norm_num)]
    exact_mod_cast hc100
  have hge : (0 : ℚ) ≤ (c : ℚ) / 100 :=
    div_nonneg (by exact_mod_cast hc0) (by norm_num)
  rw [min_eq_right hle, max_eq_right hge]
  exact roundTo2_int_div c

/-- Witness for C2: one valid token (95), one sentinel, one whitespace-only
token; the score is 0.95. -/
theorem calculate_confidence_spec_witness :
    valid_confidences [95, -1, 60]
      ["word".toList, "x".toList, "  ".toList] = [95] ∧
    calculate_confidence [95, -1, 60]
      ["word".toList, "x".toList, "  ".toList] = (95 : ℚ) / 100 :=
  ⟨by decide,
    (calculate_confidence_spec [95, -1, 60]
      ["word".toList, "x".toList, "  ".toList]).2.2 95
      (by norm_num) (by norm_num) (by decide)⟩

/-- C3: when the candidate set is non-empty and no keyword-bearing line
yields a keyword-anchored match in the candidate set (`_find_total_value`
returns nothing), `extract_value` falls back to the maximum of the
deduplicated candidate set. -/
theorem extract_value_fallback_max (text : List Char)
    (h1 : find_all_values text ≠ [])
    (h2 : find_total_value text (find_all_values text) = none) :
    ∃ m, extract_value text = some m ∧ m ∈ find_all_values text ∧
      ∀ w ∈ find_all_values text, w.val ≤ m.val := by
  unfold extract_value
  rw [if_neg h1, h2, if_neg (by simp [optTruthy])]
  rcases hl : find_all_values text with _ | ⟨x, xs⟩
  · exact absurd hl h1
  · have hp : pyMax (x :: xs) =
        some (xs.foldl (fun acc y => if decLt acc y then y else acc) x) := rfl
    obtain ⟨hm, hge⟩ := pyMax_spec hp
    exact ⟨_, hp, hm, hge⟩

/-- Witness for C3: amounts 90,00 and 125,50 with no total keyword anywhere;
the fallback yields the maximum. -/
theorem extract_value_fallback_max_witness :
    find_all_values "Pao 90,00\nLeite 125,50".toList ≠ [] ∧
    find_total_value "Pao 90,00\nLeite 125,50".toList
      (find_all_values "Pao 90,00\nLeite 125,50".toList) = none ∧
    (∃ m, extract_value "Pao 90,00\nLeite 125,50".toList = some m ∧
      m ∈ find_all_values "Pao 90,00\nLeite 125,50".toList ∧
      ∀ w ∈ find_all_values "Pao 90,00\nLeite 125,50".toList,
        w.val ≤ m.val) :=
  ⟨by decide, by decide,
    extract_value_fallback_max "Pao 90,00\nLeite 125,50".toList
      (by decide) (by decide)⟩

/-- C4: with no valid monetary candidate in the text, `extract_value` returns
`none` — not zero, and (being a total function) without failing. -/
theorem extract_value_absent_when_no_candidates (text : List Char)
    (h : find_all_values text = []) : extract_value text = none := by
  unfold extract_value
  rw [if_pos h]

/-- Witness for C4: a text with no recognizable amount pattern. -/
theorem extract_value_absent_when_no_candidates_witness :
    find_all_values "Nota fiscal sem numeros".toList = [] ∧
    extract_value "Nota fiscal sem numeros".toList = none :=
  ⟨by decide,
    extract_value_absent_when_no_candidates
      "Nota fiscal sem numeros".toList (by decide)⟩

/-- C5: the orchestrator rejects recognised text exactly when its trimmed
length is under 10 characters, raising the processing error; otherwise it
succeeds with the trimmed text, the parsed value (possibly absent) and the
confidence. -/
theorem extract_receipt_data_length_gate (text : List Char)
    (confidence : ℚ) :
    ((pyStrip text).length < 10 →
      extract_receipt_data text confidence =
        Except.error (OCRFailure.processingError
          "Insufficient text extracted".toList)) ∧
    (10 ≤ (pyStrip text).length →
      extract_receipt_data text confidence =
        Except.ok ⟨pyStrip text, extract_value text, confidence⟩) := by
  constructor
  · intro h
    unfold extract_receipt_data
    rw [if_pos]
    simp [h]
  · intro h
    have htext : text ≠ [] := by
      intro he
      rw [he] at h
      simp [pyStrip] at h
    unfold extract_receipt_data
    rw [if_neg]
    simp only [Bool.or_eq_true, decide_eq_true_eq, not_or]
    exact ⟨htext, by omega⟩

/-- Witness for C5: text of trimmed length 5 fails; text of trimmed length 50
succeeds even though its value is absent. -/
theorem extract_receipt_data_length_gate_witness :
    extract_receipt_data "abcde".toList (9 / 10) =
      Except.error (OCRFailure.processingError
        "Insufficient text extracted".toList) ∧
    extract_receipt_data sampleLongText (87 / 100) =
      Except.ok ⟨sampleLongText, none, 87 / 100⟩ := by
  constructor
  · exact (extract_receipt_data_length_gate "abcde".toList (9 / 10)).1
      (by decide)
  · have h := (extract_receipt_data_length_gate sampleLongText (87 / 100)).2
      (by decide)
    rw [h]
    have hs : pyStrip sampleLongText = sampleLongText := by decide
    have hv : extract_value sampleLongText = none := by decide
    rw [hs, hv]

/-- C6: `preprocess_image` is a total function, and whenever the imaging
pipeline fails at any stage (including undecodable input bytes), it returns
the original input bytes unchanged. -/
theorem preprocess_image_error_returns_input {α : Type}
    (decode : List ℕ → Except (List Char) α)
    (normalizeMode grayscale contrast denoise sharpen :
      α → Except (List Char) α)
    (encode : α → Except (List Char) (List ℕ)) (image_data : List ℕ)
    (e : List Char)
    (h : preprocessPipeline decode normalizeMode grayscale contrast denoise
      sharpen encode image_data = Except.error e) :
    preprocess_image decode normalizeMode grayscale contrast denoise sharpen
      encode image_data = image_data := by
  unfold preprocess_image
  rw [h]

/-- Witness for C6: corrupt bytes whose decode stage fails come back
unchanged. -/
theorem preprocess_image_error_returns_input_witness :
    preprocess_image (α := Unit)
      (fun _ => Except.error "cannot identify image file".toList)
      (fun i => Except.ok i) (fun i => Except.ok i) (fun i => Except.ok i)
      (fun i => Except.ok i) (fun i => Except.ok i) (fun _ => Except.ok [])
      [0, 255, 17] = [0, 255, 17] :=
  preprocess_image_error_returns_input _ _ _ _ _ _ _ _ _ rfl

/-- C7: parsing `"R$ 1.234,56"` yields the decimal 1234.56; formatting it
reproduces the same string, whose re-parse denotes the equal amount; and
parsing a malformed string with two decimal separators returns `none` rather
than failing. -/
theorem format_parse_round_trip :
    parse_value "R$ 1.234,56".toList = some ⟨123456, 2⟩ ∧
    (PyDecimal.mk 123456 2).val = 123456 / 100 ∧
    format_brl ⟨123456, 2⟩ = "R$ 1.234,56".toList ∧
    parse_value (format_brl ⟨123456, 2⟩) = some ⟨123456, 2⟩ ∧
    parse_value "12,34,56".toList = none :=
  ⟨by decide, by norm_num [PyDecimal.val], by decide, by decide, by decide⟩

/-- C8: every candidate retained by `_find_all_values`, and hence every value
returned by `extract_value`, is strictly positive and within the sane range
`[0.01, 1000000]`. -/
theorem monetary_candidates_bounded (text : List Char) (v : PyDecimal) :
    (v ∈ find_all_values text →
      0 < v.val ∧ 1 / 100 ≤ v.val ∧ v.val ≤ 1000000) ∧
    (extract_value text = some v →
      0 < v.val ∧ 1 / 100 ≤ v.val ∧ v.val ≤ 1000000) := by
  have hmem : ∀ w : PyDecimal, w ∈ find_all_values text →
      0 < w.val ∧ 1 / 100 ≤ w.val ∧ w.val ≤ 1000000 :=
    fun w hw => is_valid_value_bounds (mem_find_all_values hw).2
  refine ⟨hmem v, ?_⟩
  intro h
  unfold extract_value at h
  by_cases h1 : find_all_values text = []
  · rw [if_pos h1] at h; cases h
  · rw [if_neg h1] at h
    by_cases h2 : optTruthy (find_total_value text (find_all_values text))
        = true
    · rw [if_pos h2] at h
      obtain ⟨w, hw, heq⟩ := find_total_value_eqv h
      rw [(decEqv_iff _ _).mp heq]
      exact hmem w hw
    · rw [if_neg h2] at h
      obtain ⟨hm, _⟩ := pyMax_spec h
      exact hmem v hm

/-- Witness for C8 at the candidate 9.99 extracted from `"R$ 9,99"`. -/
theorem monetary_candidates_bounded_witness :
    (PyDecimal.mk 999 2) ∈ find_all_values "R$ 9,99".toList ∧
    (0 < (PyDecimal.mk 999 2).val ∧ 1 / 100 ≤ (PyDecimal.mk 999 2).val ∧
      (PyDecimal.mk 999 2).val ≤ 1000000) :=
  ⟨by decide,
    (monetary_candidates_bounded "R$ 9,99".toList ⟨999, 2⟩).1 (by decide)⟩

/-- C9: a candidate captured by the bare pattern (no currency marker, no
thousands separators) has at most four integer digits, so its value is below
10000; consequently the five-integer-digit bare token `"12345,67"` produces
no candidate at all and `extract_value` returns `none` on such a text. -/
theorem bare_amount_four_digit_limit (text : List Char) :
    (∀ g ∈ scanAll matchP3 text, ∀ v, parse_brazilian_currency g = some v →
      v.val < 10000) ∧
    find_all_values "Compra 12345,67".toList = [] ∧
    extract_value "Compra 12345,67".toList = none := by
  refine ⟨?_, by decide, by decide⟩
  intro g hg v hv
  obtain ⟨bos2, s2, r2, hm⟩ := scanAll_mem hg
  have hm2 : matchBoundedAt groupP3 bos2 s2 = some (g, r2) := hm
  obtain ⟨s3, r3, hgrp⟩ := matchBoundedAt_group hm2
  obtain ⟨ds, a, b, hgeq, hlen1, hlen4, hds, ha, hb⟩ := groupP3_shape hgrp
  subst hgeq
  have hne : ds ≠ [] := by
    intro he
    rw [he] at hlen1
    simp at hlen1
  rw [parse_group_shape hds hne ha hb] at hv
  cases hv
  have hall : ∀ c ∈ ds ++ [a, b], isPyDigit c = true := by
    intro c hc
    rcases List.mem_append.mp hc with hc1 | hc1
    · exact hds c hc1
    · rcases List.mem_cons.mp hc1 with hc2 | hc2
      · exact hc2 ▸ ha
      · rcases List.mem_cons.mp hc2 with hc3 | hc3
        · exact hc3 ▸ hb
        · cases hc3
  have hlt : natOfDigits (ds ++ [a, b]) < 10 ^ 6 := by
    calc natOfDigits (ds ++ [a, b]) < 10 ^ (ds ++ [a, b]).length :=
          natOfDigits_lt hall
      _ ≤ 10 ^ 6 := by
          apply pow_le_pow_right₀ (by norm_num)
          simp only [List.length_append, List.length_cons, List.length_nil]
          omega
  show (PyDecimal.mk (natOfDigits (ds ++ [a, b]) : ℤ) 2).val < 10000
  unfold PyDecimal.val
  rw [div_lt_iff₀ (by positivity)]
  have hq : ((natOfDigits (ds ++ [a, b]) : ℤ) : ℚ) < 10 ^ 6 := by
    exact_mod_cast hlt
  calc ((natOfDigits (ds ++ [a, b]) : ℤ) : ℚ) < 10 ^ 6 := hq
    _ = 10000 * 10 ^ 2 := by norm_num

/-- Witness for C9: `"1234,56"` (four integer digits) is captured by the bare
pattern and its value 1234.56 is below 10000. -/
theorem bare_amount_four_digit_limit_witness :
    "1234,56".toList ∈ scanAll matchP3 " 1234,56".toList ∧
    parse_brazilian_currency "1234,56".toList = some ⟨123456, 2⟩ ∧
    (PyDecimal.mk 123456 2).val < 10000 :=
  ⟨by decide, by decide,
    (bare_amount_four_digit_limit " 1234,56".toList).1
      "1234,56".toList (by decide) ⟨123456, 2⟩ (by decide)⟩

/-- C10: `calculate_confidence` is total over arbitrary parallel arrays: its
score always lies in `[0, 1]`, and when the arrays have different lengths
the pairs are formed only up to the shorter length, the extra entries being
ignored. -/
theorem calculate_confidence_total_truncating (confs : List ℤ)
    (texts : List (List Char)) :
    0 ≤ calculate_confidence confs texts ∧
    calculate_confidence confs texts ≤ 1 ∧
    calculate_confidence confs texts =
      calculate_confidence (confs.take (min confs.length texts.length))
        (texts.take (min confs.length texts.length)) := by
  have htr := valid_confidences_take confs texts
  by_cases h : valid_confidences confs texts = []
  · rw [calc_conf_zero h, calc_conf_zero (by rw [htr]; exact h)]
    norm_num
  · have hbounds : 0 ≤ calculate_confidence confs texts ∧
        calculate_confidence confs texts ≤ 1 := by
      rw [calc_conf_formula h]
      exact roundTo2_bounds (le_max_left _ _)
        (max_le (by norm_num) (min_le_left _ _))
    refine ⟨hbounds.1, hbounds.2, ?_⟩
    rw [calc_conf_formula h, calc_conf_formula (by rw [htr]; exact h), htr]

end RelatoRecibo
